import Mathlib

/-!
Verification of the phrase deduplication and near-duplicate analysis engine
(`scripts/analysis/phrase-reducer.py` and `scripts/analysis/quick-phrase-analysis.py`).

The Python code is shallowly embedded: phrases are lists of characters,
floating-point similarity scores are modelled as exact rationals, and the
`difflib.SequenceMatcher` algorithm (CPython implementation, `isjunk=None`,
`autojunk=True`) is translated function by function.
-/

set_option autoImplicit false

namespace PhraseReducer

abbrev Phrase := List Char

/-- The whitespace class used by the regex `\s` and by `str.strip` in
`normalize_phrase` (ASCII part; the corpus phrases are ASCII text). -/
def pyIsSpace (c : Char) : Bool :=
  c = ' ' || c = '\t' || c = '\n' || c = '\r' || c = '\x0b' || c = '\x0c'

/-- `re.sub(r'\s+', ' ', phrase)`: collapse each run of whitespace to one space. -/
def collapseWs : List Char → List Char
  | [] => []
  | [c] => if pyIsSpace c then [' '] else [c]
  | c1 :: c2 :: rest =>
    if pyIsSpace c1 && pyIsSpace c2 then collapseWs (c2 :: rest)
    else (if pyIsSpace c1 then ' ' else c1) :: collapseWs (c2 :: rest)

/-- `str.strip()`: drop leading and trailing whitespace. -/
def pyStrip (l : List Char) : List Char :=
  ((l.dropWhile pyIsSpace).reverse.dropWhile pyIsSpace).reverse

/-- `PhraseAnalyzer.normalize_phrase` (phrase-reducer.py lines 23-28):
collapse whitespace runs, strip, lowercase (ASCII case folding). -/
def normalize_phrase (p : Phrase) : Phrase :=
  (pyStrip (collapseWs p)).map Char.toLower

/-! ### difflib.SequenceMatcher (CPython), as used by `similarity_ratio`

`SequenceMatcher(None, str1, str2).ratio()` with `isjunk=None`: the junk set
`bjunk` is empty, so the two junk-extension loops of `find_longest_match` are
dead code and are omitted; the `autojunk` heuristic (elements of `b` occurring
more than `len(b)//100 + 1` times when `len(b) >= 200`) is modelled. -/

/-- All indices of character `c` in `b`, ascending (the `b2j` lists built by
`SequenceMatcher.__chain_b` before autojunk removal). -/
def b2jAll (b : List Char) (c : Char) : List Nat :=
  (List.range b.length).filter (fun j => b.get? j = some c)

/-- `b2j` after autojunk: popular elements (count exceeding `len(b)//100 + 1`
when `len(b) >= 200`) are deleted from the index. -/
def b2j (b : List Char) (c : Char) : List Nat :=
  if 200 ≤ b.length ∧ b.length / 100 + 1 < (b2jAll b c).length then []
  else b2jAll b c

/-- The running best block of `find_longest_match`. -/
structure FlmBest where
  besti : Nat
  bestj : Nat
  bestsize : Nat
deriving DecidableEq

/-- One iteration of the inner `for j in b2j.get(a[i], nothing)` loop of
`find_longest_match`: `j2len` is the previous row, the accumulator carries the
best block so far and the new row being built.  `if j < blo: continue` and
`if j >= bhi: break` are the range filter (the index lists are ascending). -/
def flmStep (blo bhi : Nat) (j2len : Nat → Nat) (i : Nat)
    (acc : FlmBest × (Nat → Nat)) (j : Nat) : FlmBest × (Nat → Nat) :=
  if blo ≤ j ∧ j < bhi then
    let k := (if j = 0 then 0 else j2len (j - 1)) + 1
    let best := if acc.1.bestsize < k then FlmBest.mk (i + 1 - k) (j + 1 - k) k else acc.1
    (best, Function.update acc.2 j k)
  else acc

/-- One iteration of the outer `for i in range(alo, ahi)` loop of
`find_longest_match`: start a fresh `newj2len` row and fold the inner loop
over the index list of the character `a[i]`. -/
def flmRow (a b : List Char) (blo bhi : Nat) (st : FlmBest × (Nat → Nat))
    (i : Nat) : FlmBest × (Nat → Nat) :=
  let js := match a.get? i with
    | some c => b2j b c
    | none => []
  js.foldl (flmStep blo bhi st.2 i) (st.1, fun _ => 0)

/-- The dynamic-programming scan of `find_longest_match`, starting from
`besti, bestj, bestsize = alo, blo, 0` and an empty `j2len`. -/
def flmScan (a b : List Char) (alo ahi blo bhi : Nat) : FlmBest × (Nat → Nat) :=
  ((List.range ahi).drop alo).foldl (flmRow a b blo bhi) (FlmBest.mk alo blo 0, fun _ => 0)

/-- The first extension loop of `find_longest_match`: extend the best block
leftwards while the preceding characters are equal (`bjunk` is empty, so the
`not isbjunk(...)` conjunct always holds).  The `isSome` guard keeps the
function total; callers always have `bi ≤ a.length` and `bj ≤ b.length`. -/
def extendLeft (a b : List Char) (alo blo : Nat) : Nat → Nat → Nat → Nat × Nat × Nat
  | 0, bj, k => (0, bj, k)
  | bi + 1, bj, k =>
    if alo < bi + 1 ∧ blo < bj ∧ (a.get? bi).isSome ∧ a.get? bi = b.get? (bj - 1) then
      extendLeft a b alo blo bi (bj - 1) (k + 1)
    else (bi + 1, bj, k)

/-- The second extension loop of `find_longest_match`: extend the best block
rightwards while the following characters are equal.  The loop condition
`besti+bestsize < ahi` is encoded by the step counter `ahi - (bi + k)`, which
counts the remaining iterations exactly. -/
def extendRightAux (a b : List Char) (bhi bi bj : Nat) : Nat → Nat → Nat
  | 0, k => k
  | fuel + 1, k =>
    if bj + k < bhi ∧ (a.get? (bi + k)).isSome ∧ a.get? (bi + k) = b.get? (bj + k) then
      extendRightAux a b bhi bi bj fuel (k + 1)
    else k

/-- `while besti+bestsize < ahi and bestj+bestsize < bhi and a[...] == b[...]`. -/
def extendRight (a b : List Char) (ahi bhi : Nat) (bi bj k : Nat) : Nat :=
  extendRightAux a b bhi bi bj (ahi - (bi + k)) k

/-- `SequenceMatcher.find_longest_match(alo, ahi, blo, bhi)`. -/
def findLongestMatch (a b : List Char) (alo ahi blo bhi : Nat) : Nat × Nat × Nat :=
  let best := (flmScan a b alo ahi blo bhi).1
  let step := extendLeft a b alo blo best.besti best.bestj best.bestsize
  (step.1, step.2.1, extendRight a b ahi bhi step.1 step.2.1 step.2.2)

/-- The total size of the matching blocks found by
`SequenceMatcher.get_matching_blocks` on the segment `a[alo:ahi]` versus
`b[blo:bhi]` (the queue in the Python code linearises exactly this recursion;
merging adjacent blocks does not change the total size).  The fuel argument
bounds the recursion depth; every recursive call strictly shrinks the segment,
so the initial fuel `len(a) + len(b) + 1` is never exhausted. -/
def matchedTotalAux (a b : List Char) : Nat → Nat → Nat → Nat → Nat → Nat
  | 0, _, _, _, _ => 0
  | fuel + 1, alo, ahi, blo, bhi =>
    let m := findLongestMatch a b alo ahi blo bhi
    let i := m.1
    let j := m.2.1
    let k := m.2.2
    if k = 0 then 0
    else k + (if alo < i ∧ blo < j then matchedTotalAux a b fuel alo i blo j else 0)
           + (if i + k < ahi ∧ j + k < bhi then matchedTotalAux a b fuel (i + k) ahi (j + k) bhi else 0)

/-- `matches = sum(triple[-1] for triple in self.get_matching_blocks())`. -/
def matchedTotal (a b : List Char) : Nat :=
  matchedTotalAux a b (a.length + b.length + 1) 0 a.length 0 b.length

/-- `PhraseAnalyzer.similarity_ratio` (phrase-reducer.py lines 30-32):
`SequenceMatcher(None, str1, str2).ratio() = 2.0 * M / T`, and `1.0` when
`T = 0` (difflib `_calculate_ratio`).  The float result is modelled as the
exact rational `2*M/T`, written with `mkRat` (see `similarity_ratio_eq_div`). -/
def similarity_ratio (a b : List Char) : ℚ :=
  if a.length + b.length = 0 then 1
  else mkRat (2 * matchedTotal a b) (a.length + b.length)

/-! ### The corpus model

The loaders (`load_damage_files`, `load_location_files`, `load_opening_files`)
produce a flat stream of occurrences: each appends one entry to
`self.all_phrases` and one location record to
`self.phrase_locations[phrase]`.  A corpus is that stream. -/

/-- One location record `{'file': ..., 'type': ..., 'outcome': ...}`. -/
structure Loc where
  file : String
  typ : String
  outcome : String
deriving DecidableEq

/-- One loaded occurrence: a phrase together with the location it came from. -/
structure Occurrence where
  phrase : Phrase
  loc : Loc
deriving DecidableEq

/-- `self.all_phrases` after loading, in load order. -/
def all_phrases (corpus : List Occurrence) : List Phrase :=
  corpus.map (fun o => o.phrase)

/-- `self.phrase_locations[p]` after loading: the location records of `p`, in
load (append) order. -/
def phrase_locations (corpus : List Occurrence) (p : Phrase) : List Loc :=
  (corpus.filter (fun o => decide (o.phrase = p))).map (fun o => o.loc)

/-- First-occurrence deduplication.  This is the iteration order of a Python
`dict` built by insertion (`phrase_locations.items()` iterates keys in
first-insertion order).  `list(set(...))` iterates in an order CPython does not
fix; where the code relies only on set membership we model it with the same
first-occurrence order. -/
def pyDedupAux {α : Type} [DecidableEq α] (seen : List α) : List α → List α
  | [] => []
  | x :: xs =>
    if x ∈ seen then pyDedupAux seen xs else x :: pyDedupAux (x :: seen) xs

/-- `pyDedupAux` starting from an empty seen-set. -/
def pyDedup {α : Type} [DecidableEq α] (l : List α) : List α :=
  pyDedupAux [] l

/-- One reported exact-duplicate group (phrase-reducer.py lines 124-129). -/
structure ExactGroup where
  phrase : Phrase
  count : Nat
  locations : List Loc
  files : List String
deriving DecidableEq

/-- `PhraseAnalyzer.find_exact_duplicates` (phrase-reducer.py lines 117-129):
for each phrase (dict iteration in first-insertion order), report it when it
has more than one occurrence and the occurrences span more than one file. -/
def find_exact_duplicates (corpus : List Occurrence) : List ExactGroup :=
  (pyDedup (all_phrases corpus)).filterMap (fun p =>
    let locations := phrase_locations corpus p
    if 1 < locations.length then
      let files := pyDedup (locations.map (fun l => l.file))
      if 1 < files.length then
        some (ExactGroup.mk p locations.length locations files)
      else none
    else none)

/-- `QuickPhraseAnalyzer.find_cross_file_duplicates`
(quick-phrase-analysis.py lines 116-134): for each phrase, the set of files is
computed from the location strings `"file:category:outcome"` by
`loc.split(':')[0]`, which recovers the file component; it is modelled by the
`file` field of the shared occurrence record.  A phrase is reported (as a
`(phrase, files, count)` tuple) when its occurrences span more than one file;
there is no `len(locations) > 1` pre-check. -/
def find_cross_file_duplicates (corpus : List Occurrence) :
    List (Phrase × List String × Nat) :=
  (pyDedup (all_phrases corpus)).filterMap (fun p =>
    let locations := phrase_locations corpus p
    let files := pyDedup (locations.map (fun l => l.file))
    if 1 < files.length then some (p, files, locations.length) else none)

/-! ### The pairwise similarity scanner (`find_near_duplicates`) -/

/-- `length_bucket = len(phrase) // 10` (phrase-reducer.py line 139). -/
def lengthBucket (p : Phrase) : Nat :=
  p.length / 10

/-- `range(max(0, length_bucket1-2), length_bucket1+3)` (line 152); natural
subtraction realises the `max(0, ·)`.  Buckets absent from `length_buckets`
contribute an empty candidate list, which is the `continue` at line 153. -/
def bucketRange (b1 : Nat) : List Nat :=
  (List.range (b1 + 3)).filter (fun b => decide (b1 - 2 ≤ b))

/-- `length_buckets[bucket]`: the unique phrases of one length bucket, in
`unique_phrases` order (they are appended in that order at line 140). -/
def bucketPhrases (uniq : List Phrase) (b : Nat) : List Phrase :=
  uniq.filter (fun p => decide (lengthBucket p = b))

/-- `abs(len1 - len2) / max(len1, len2) > 0.2` (line 162).  The float literal
`0.2` is the rational `1/5`; for phrase lengths the float comparison and the
exact rational comparison agree.  (When both phrases are empty Python would
divide by zero, but that point is unreachable: it is preceded by the
`phrase1 == phrase2` skip.  `mkRat _ 0 = 0` makes the guard false there.) -/
def tooFarApart (p1 p2 : Phrase) : Prop :=
  mkRat 1 5 < mkRat (((p1.length : ℤ) - (p2.length : ℤ)).natAbs) (max p1.length p2.length)

instance (p1 p2 : Phrase) : Decidable (tooFarApart p1 p2) := by
  unfold tooFarApart; infer_instance

/-- One emitted near-duplicate pair (phrase-reducer.py lines 173-179). -/
structure NearDup where
  phrase1 : Phrase
  phrase2 : Phrase
  similarity : ℚ
  locations1 : List Loc
  locations2 : List Loc
deriving DecidableEq

/-- The body of the innermost candidate loop (lines 156-179): skip identical
phrases, skip pairs whose lengths differ by more than 20%, count the
comparison, skip normalized-equal pairs, then score and emit at or above the
threshold.  The accumulator is `(near_duplicates, total_comparisons)`. -/
def scanStep (corpus : List Occurrence) (t : ℚ) (p1 : Phrase)
    (acc : List NearDup × Nat) (p2 : Phrase) : List NearDup × Nat :=
  if p1 = p2 then acc
  else if tooFarApart p1 p2 then acc
  else
    let acc2 := (acc.1, acc.2 + 1)
    if normalize_phrase p1 = normalize_phrase p2 then acc2
    else
      let s := similarity_ratio (normalize_phrase p1) (normalize_phrase p2)
      if t ≤ s then
        (acc2.1 ++ [NearDup.mk p1 p2 s (phrase_locations corpus p1) (phrase_locations corpus p2)],
         acc2.2)
      else acc2

/-- `PhraseAnalyzer.find_near_duplicates` (lines 131-181), as the nested loops
of the source: anchors in `unique_phrases` order, candidate buckets in
`bucketRange` order, candidates in bucket order.  `unique_phrases` is
`list(set(self.all_phrases))`, whose order CPython does not fix, so the
enumeration `uniq` is a parameter; theorems about a full run assume it is a
duplicate-free enumeration of the phrases of the corpus.  Returns the emitted
pair list together with the final `total_comparisons` counter. -/
def find_near_duplicates_scan (corpus : List Occurrence) (uniq : List Phrase)
    (t : ℚ) : List NearDup × Nat :=
  uniq.foldl (fun acc p1 =>
    (bucketRange (lengthBucket p1)).foldl (fun acc b =>
      (bucketPhrases uniq b).foldl (scanStep corpus t p1) acc) acc) ([], 0)

/-- The `self.near_duplicates` list produced by `find_near_duplicates`. -/
def find_near_duplicates (corpus : List Occurrence) (uniq : List Phrase)
    (t : ℚ) : List NearDup :=
  (find_near_duplicates_scan corpus uniq t).1

/-- The final value of the `total_comparisons` counter (lines 142, 165, 181). -/
def total_comparisons (corpus : List Occurrence) (uniq : List Phrase) (t : ℚ) : Nat :=
  (find_near_duplicates_scan corpus uniq t).2

/-! ### A structured view of the scanner

The nested accumulator loops only ever append, so the scan is equal to a
`flatMap` over anchors; the lemmas below establish that and are the basis of
all theorems about `find_near_duplicates`. -/

/-- What one candidate-loop iteration appends to `near_duplicates`. -/
def emitOne (corpus : List Occurrence) (t : ℚ) (p1 p2 : Phrase) : List NearDup :=
  if p1 ≠ p2 ∧ ¬ tooFarApart p1 p2 ∧ normalize_phrase p1 ≠ normalize_phrase p2 ∧
      t ≤ similarity_ratio (normalize_phrase p1) (normalize_phrase p2) then
    [NearDup.mk p1 p2 (similarity_ratio (normalize_phrase p1) (normalize_phrase p2))
      (phrase_locations corpus p1) (phrase_locations corpus p2)]
  else []

/-- What one candidate-loop iteration adds to `total_comparisons`. -/
def cmpOne (p1 p2 : Phrase) : Nat :=
  if p1 ≠ p2 ∧ ¬ tooFarApart p1 p2 then 1 else 0

/-- The pairs appended while `p1` is the anchor, in emission order. -/
def emittedFor (corpus : List Occurrence) (uniq : List Phrase) (t : ℚ)
    (p1 : Phrase) : List NearDup :=
  (bucketRange (lengthBucket p1)).flatMap
    (fun b => (bucketPhrases uniq b).flatMap (emitOne corpus t p1))

/-- The comparisons counted while `p1` is the anchor. -/
def comparisonsFor (uniq : List Phrase) (p1 : Phrase) : Nat :=
  ((bucketRange (lengthBucket p1)).map
    (fun b => ((bucketPhrases uniq b).map (cmpOne p1)).sum)).sum

/-- The candidates drawn for anchor `p1`: the phrases of the admissible
buckets, in scan order (lines 152-156). -/
def candidatePhrases (uniq : List Phrase) (p1 : Phrase) : List Phrase :=
  (bucketRange (lengthBucket p1)).flatMap (bucketPhrases uniq)

/-- The candidates that reach `total_comparisons += 1` (line 165): those that
pass the identity guard (line 157) and the length-delta guard (line 162). -/
def comparedPhrases (uniq : List Phrase) (p1 : Phrase) : List Phrase :=
  (candidatePhrases uniq p1).filter
    (fun p2 => decide (p1 ≠ p2 ∧ ¬ tooFarApart p1 p2))

/-- The candidates for which a similarity score is computed (line 171): those
that also pass the normalized-equality guard (line 168). -/
def scoredPhrases (uniq : List Phrase) (p1 : Phrase) : List Phrase :=
  (comparedPhrases uniq p1).filter
    (fun p2 => decide (normalize_phrase p1 ≠ normalize_phrase p2))

/-! ### `generate_report` statistics -/

/-- The aggregate statistics of `PhraseAnalyzer.generate_report`
(phrase-reducer.py lines 183-243): total instances, unique phrase count,
exact-duplicate group count, near-duplicate pair count, the duplicate-instance
sum, and the estimated reduction percentage (guarded against an empty
corpus at line 230). -/
structure ReportStats where
  totalInstances : Nat
  uniquePhrases : Nat
  exactDuplicates : Nat
  nearDuplicates : Nat
  duplicateInstances : Nat
  reductionPct : ℚ
deriving DecidableEq

/-- `generate_report`, restricted to the statistics it computes (rendering the
markdown, sorting for display and the top-50/top-100 caps are presentation
and are out of scope). -/
def generate_report (corpus : List Occurrence) (uniq : List Phrase) (t : ℚ) :
    ReportStats :=
  let dups := find_exact_duplicates corpus
  let near := find_near_duplicates corpus uniq t
  let duplicate_instances := (dups.map (fun d => d.count - 1)).sum
  let total_potential := duplicate_instances + near.length
  ReportStats.mk (all_phrases corpus).length (pyDedup (all_phrases corpus)).length
    dups.length near.length duplicate_instances
    (if (all_phrases corpus).length ≠ 0 then
      (total_potential : ℚ) / ((all_phrases corpus).length : ℚ) * 100
    else 0)

/-! ### Auxiliary notions for the analysis of `find_longest_match` -/

/-- The autojunk popularity condition of `SequenceMatcher.__chain_b`. -/
def sPopular (b : List Char) (c : Char) : Prop :=
  200 ≤ b.length ∧ b.length / 100 + 1 < (b2jAll b c).length

instance (b : List Char) (c : Char) : Decidable (sPopular b c) := by
  unfold sPopular; infer_instance

/-- Position `x` of `s` holds a non-popular character. -/
def nonPopAt (s : List Char) (x : Nat) : Bool :=
  match s.get? x with
  | some c => ! decide (sPopular s c)
  | none => false

/-- The length of the maximal run of non-popular characters of `s` ending at
position `x` (the value of the diagonal `j2len` chain in a self-comparison). -/
def D (s : List Char) : Nat → Nat
  | 0 => if nonPopAt s 0 then 1 else 0
  | x + 1 => if nonPopAt s (x + 1) then D s x + 1 else 0

/-- `D` at the row before `i` (0 for the first row). -/
def Dprev (s : List Char) : Nat → Nat
  | 0 => 0
  | x + 1 => D s x

/-- The invariant of the `find_longest_match` row loop in a self-comparison
`a = b = s` over the full range: the best block lies on the diagonal and is
in bounds, its size dominates every non-popular run ending before row `i`,
the previous row `j2len` is bounded by the run lengths, and its diagonal
entry is exact. -/
def rowInv (s : List Char) (i : Nat) (st : FlmBest × (Nat → Nat)) : Prop :=
  st.1.besti = st.1.bestj ∧
  st.1.besti + st.1.bestsize ≤ s.length ∧
  (∀ x, x < i → D s x ≤ st.1.bestsize) ∧
  (∀ j, st.2 j ≤ min (Dprev s i) (D s j)) ∧
  (i ≠ 0 → st.2 (i - 1) = D s (i - 1))

/-! ### Claim-specific notions and concrete inputs -/

/-- How many entries of a result list report the unordered pair `{P, Q}`
(in either orientation). -/
def pairOccurrences (res : List NearDup) (P Q : Phrase) : Nat :=
  (res.filter (fun d =>
    decide ((d.phrase1 = P ∧ d.phrase2 = Q) ∨ (d.phrase1 = Q ∧ d.phrase2 = P)))).length

/-- How many entries of a result list report the ordered pair `(P, Q)`. -/
def orderedPairOccurrences (res : List NearDup) (P Q : Phrase) : Nat :=
  (res.filter (fun d => decide (d.phrase1 = P ∧ d.phrase2 = Q))).length

/-- A two-phrase corpus whose phrases are near-duplicates of each other in
both orientations (similarity 8/9 ≥ 0.85 both ways). -/
def corpusAB : List Occurrence :=
  [Occurrence.mk "aaaab".toList (Loc.mk "f1.json" "verb" "hit"),
   Occurrence.mk "aaaa".toList (Loc.mk "f2.json" "verb" "hit")]

/-- One enumeration of the phrase set of `corpusAB`. -/
def uniqAB : List Phrase :=
  ["aaaab".toList, "aaaa".toList]

/-- The other enumeration of the phrase set of `corpusAB`. -/
def uniqBA : List Phrase :=
  ["aaaa".toList, "aaaab".toList]

/-- Scenario A of the specification: one phrase occurring once in
`sword.json` and once in `dagger.json`. -/
def corpusBlade : List Occurrence :=
  [Occurrence.mk "The blade cuts deep".toList (Loc.mk "sword.json" "verb" "hit"),
   Occurrence.mk "The blade cuts deep".toList (Loc.mk "dagger.json" "verb" "hit")]

/-- The only enumeration of the phrase set of `corpusBlade`. -/
def uniqBlade : List Phrase :=
  ["The blade cuts deep".toList]

/-- Two phrases that differ in literal case and whitespace but have equal
normalized forms. -/
def corpusCase : List Occurrence :=
  [Occurrence.mk "The  Blade".toList (Loc.mk "f1.json" "verb" "hit"),
   Occurrence.mk "the blade".toList (Loc.mk "f2.json" "verb" "hit")]

/-- An enumeration of the phrase set of `corpusCase`. -/
def uniqCase : List Phrase :=
  ["The  Blade".toList, "the blade".toList]

/-! ## Theorems -/

/-- The `mkRat` in `similarity_ratio` is ordinary division `2*M/T`. -/
theorem similarity_ratio_eq_div (a b : List Char) (h : a.length + b.length ≠ 0) :
    similarity_ratio a b =
      2 * (matchedTotal a b : ℚ) / ((a.length : ℚ) + (b.length : ℚ)) := by
  rw [similarity_ratio, if_neg h, Rat.mkRat_eq_div]
  push_cast
  ring

theorem scanStep_shape (corpus : List Occurrence) (t : ℚ) (p1 : Phrase)
    (acc : List NearDup × Nat) (p2 : Phrase) :
    scanStep corpus t p1 acc p2 = (acc.1 ++ emitOne corpus t p1 p2, acc.2 + cmpOne p1 p2) := by
  unfold scanStep emitOne cmpOne
  by_cases h1 : p1 = p2
  · simp [h1]
  · by_cases h2 : tooFarApart p1 p2
    · simp [h1, h2]
    · by_cases h3 : normalize_phrase p1 = normalize_phrase p2
      · simp [h1, h2, h3]
      · by_cases h4 : t ≤ similarity_ratio (normalize_phrase p1) (normalize_phrase p2)
        · simp [h1, h2, h3, h4]
        · simp [h1, h2, h3, h4]

/-- A left fold whose step appends `e x` to the list and adds `c x` to the
counter is a `flatMap` plus a sum. -/
theorem foldl_shape {α β : Type} {g : List β × Nat → α → List β × Nat}
    {e : α → List β} {c : α → Nat}
    (hg : ∀ acc x, g acc x = (acc.1 ++ e x, acc.2 + c x)) :
    ∀ (l : List α) (acc : List β × Nat),
      l.foldl g acc = (acc.1 ++ l.flatMap e, acc.2 + (l.map c).sum) := by
  intro l
  induction l with
  | nil => intro acc; simp
  | cons x xs ih =>
    intro acc
    rw [List.foldl_cons, hg, ih]
    simp [List.append_assoc, Nat.add_assoc]

theorem find_near_duplicates_scan_eq (corpus : List Occurrence) (uniq : List Phrase) (t : ℚ) :
    find_near_duplicates_scan corpus uniq t =
      (uniq.flatMap (emittedFor corpus uniq t), (uniq.map (comparisonsFor uniq)).sum) := by
  unfold find_near_duplicates_scan
  have hinner : ∀ (p1 : Phrase) (l : List Phrase) (acc : List NearDup × Nat),
      l.foldl (scanStep corpus t p1) acc =
        (acc.1 ++ l.flatMap (emitOne corpus t p1), acc.2 + (l.map (cmpOne p1)).sum) :=
    fun p1 => foldl_shape (scanStep_shape corpus t p1)
  have hmid : ∀ (p1 : Phrase) (bl : List Nat) (acc : List NearDup × Nat),
      bl.foldl (fun acc b => (bucketPhrases uniq b).foldl (scanStep corpus t p1) acc) acc =
        (acc.1 ++ bl.flatMap (fun b => (bucketPhrases uniq b).flatMap (emitOne corpus t p1)),
         acc.2 + (bl.map (fun b => ((bucketPhrases uniq b).map (cmpOne p1)).sum)).sum) :=
    fun p1 => foldl_shape (fun acc b => hinner p1 (bucketPhrases uniq b) acc)
  rw [foldl_shape (fun acc p1 => hmid p1 (bucketRange (lengthBucket p1)) acc) uniq ([], 0)]
  simp only [List.nil_append, Nat.zero_add]
  exact Prod.ext rfl rfl

theorem find_near_duplicates_eq (corpus : List Occurrence) (uniq : List Phrase) (t : ℚ) :
    find_near_duplicates corpus uniq t = uniq.flatMap (emittedFor corpus uniq t) := by
  unfold find_near_duplicates
  rw [find_near_duplicates_scan_eq]

theorem total_comparisons_eq (corpus : List Occurrence) (uniq : List Phrase) (t : ℚ) :
    total_comparisons corpus uniq t = (uniq.map (comparisonsFor uniq)).sum := by
  unfold total_comparisons
  rw [find_near_duplicates_scan_eq]

/-- Membership in the result of a full scan, characterised by the source's
admissibility conditions.  The enumeration `uniq` enters only through
membership of the two phrases. -/
theorem mem_find_near_duplicates (corpus : List Occurrence) (uniq : List Phrase)
    (t : ℚ) (d : NearDup) :
    d ∈ find_near_duplicates corpus uniq t ↔
      ∃ p1 p2, p1 ∈ uniq ∧ p2 ∈ uniq ∧
        lengthBucket p2 ∈ bucketRange (lengthBucket p1) ∧
        p1 ≠ p2 ∧ ¬ tooFarApart p1 p2 ∧
        normalize_phrase p1 ≠ normalize_phrase p2 ∧
        t ≤ similarity_ratio (normalize_phrase p1) (normalize_phrase p2) ∧
        d = NearDup.mk p1 p2 (similarity_ratio (normalize_phrase p1) (normalize_phrase p2))
              (phrase_locations corpus p1) (phrase_locations corpus p2) := by
  rw [find_near_duplicates_eq]
  constructor
  · intro hd
    obtain ⟨p1, hp1, hd⟩ := List.mem_flatMap.mp hd
    simp only [emittedFor] at hd
    obtain ⟨b, hb, hd⟩ := List.mem_flatMap.mp hd
    obtain ⟨p2, hp2, hd⟩ := List.mem_flatMap.mp hd
    simp only [bucketPhrases, List.mem_filter] at hp2
    obtain ⟨hp2, hbp2⟩ := hp2
    simp only [emitOne] at hd
    by_cases hcond : p1 ≠ p2 ∧ ¬ tooFarApart p1 p2 ∧
        normalize_phrase p1 ≠ normalize_phrase p2 ∧
        t ≤ similarity_ratio (normalize_phrase p1) (normalize_phrase p2)
    · rw [if_pos hcond, List.mem_singleton] at hd
      have hbeq : lengthBucket p2 = b := of_decide_eq_true hbp2
      exact ⟨p1, p2, hp1, hp2, hbeq ▸ hb, hcond.1, hcond.2.1, hcond.2.2.1,
        hcond.2.2.2, hd⟩
    · rw [if_neg hcond] at hd
      exact absurd hd (List.not_mem_nil d)
  · rintro ⟨p1, p2, hp1, hp2, hb, h1, h2, h3, h4, hd⟩
    refine List.mem_flatMap.mpr ⟨p1, hp1, ?_⟩
    simp only [emittedFor]
    refine List.mem_flatMap.mpr ⟨lengthBucket p2, hb, ?_⟩
    refine List.mem_flatMap.mpr ⟨p2, ?_, ?_⟩
    · simp only [bucketPhrases, List.mem_filter]
      exact ⟨hp2, by simp⟩
    · simp only [emitOne]
      rw [if_pos ⟨h1, h2, h3, h4⟩, hd, List.mem_singleton]

theorem emittedFor_eq (corpus : List Occurrence) (uniq : List Phrase) (t : ℚ)
    (p1 : Phrase) :
    emittedFor corpus uniq t p1 =
      ((scoredPhrases uniq p1).filter
        (fun p2 => decide (t ≤ similarity_ratio (normalize_phrase p1) (normalize_phrase p2)))).map
        (fun p2 => NearDup.mk p1 p2
          (similarity_ratio (normalize_phrase p1) (normalize_phrase p2))
          (phrase_locations corpus p1) (phrase_locations corpus p2)) := by
  rw [emittedFor, scoredPhrases, comparedPhrases, ← List.flatMap_assoc,
    List.filter_filter, List.filter_filter]
  show (candidatePhrases uniq p1).flatMap (emitOne corpus t p1) = _
  induction candidatePhrases uniq p1 with
  | nil => rfl
  | cons p2 l ih =>
    rw [List.flatMap_cons, List.filter_cons]
    by_cases hcond : p1 ≠ p2 ∧ ¬ tooFarApart p1 p2 ∧
        normalize_phrase p1 ≠ normalize_phrase p2 ∧
        t ≤ similarity_ratio (normalize_phrase p1) (normalize_phrase p2)
    · have hb : (decide (t ≤ similarity_ratio (normalize_phrase p1) (normalize_phrase p2)) &&
          decide (normalize_phrase p1 ≠ normalize_phrase p2) &&
          decide (p1 ≠ p2 ∧ ¬ tooFarApart p1 p2)) = true := by
        simp [hcond.1, hcond.2.1, hcond.2.2.1, hcond.2.2.2]
      rw [emitOne, if_pos hcond, hb]
      simp only [if_true, List.map_cons, List.singleton_append]
      rw [ih]
    · have hb : (decide (t ≤ similarity_ratio (normalize_phrase p1) (normalize_phrase p2)) &&
          decide (normalize_phrase p1 ≠ normalize_phrase p2) &&
          decide (p1 ≠ p2 ∧ ¬ tooFarApart p1 p2)) = false := by
        by_contra hc
        rw [Bool.not_eq_false] at hc
        simp only [Bool.and_eq_true, decide_eq_true_eq] at hc
        exact hcond ⟨hc.2.1, hc.2.2, hc.1.2, hc.1.1⟩
      rw [emitOne, if_neg hcond, hb]
      simp only [Bool.false_eq_true, if_false, List.nil_append]
      exact ih

theorem comparisonsFor_eq (uniq : List Phrase) (p1 : Phrase) :
    comparisonsFor uniq p1 = (comparedPhrases uniq p1).length := by
  rw [comparisonsFor, comparedPhrases, candidatePhrases, List.filter_flatMap,
    List.length_flatMap]
  apply congrArg
  apply List.map_congr_left
  intro b _
  show ((bucketPhrases uniq b).map (cmpOne p1)).sum =
    ((bucketPhrases uniq b).filter
      (fun p2 => decide (p1 ≠ p2 ∧ ¬ tooFarApart p1 p2))).length
  induction bucketPhrases uniq b with
  | nil => rfl
  | cons p2 l ih =>
    rw [List.map_cons, List.sum_cons, List.filter_cons, cmpOne]
    by_cases hcond : p1 ≠ p2 ∧ ¬ tooFarApart p1 p2
    · rw [if_pos hcond, decide_eq_true hcond]
      simp only [if_true, List.length_cons, ih]
      omega
    · rw [if_neg hcond, decide_eq_false hcond]
      simp only [Bool.false_eq_true, if_false, ih]
      omega

theorem mem_pyDedupAux {α : Type} [DecidableEq α] (l : List α) :
    ∀ (seen : List α) (x : α), x ∈ pyDedupAux seen l ↔ x ∈ l ∧ x ∉ seen := by
  induction l with
  | nil => intro seen x; simp [pyDedupAux]
  | cons y ys ih =>
    intro seen x
    rw [pyDedupAux]
    by_cases hy : y ∈ seen
    · rw [if_pos hy, ih]
      constructor
      · rintro ⟨hx, hs⟩
        exact ⟨List.mem_cons_of_mem _ hx, hs⟩
      · rintro ⟨hx, hs⟩
        rcases List.mem_cons.mp hx with rfl | hx
        · exact absurd hy hs
        · exact ⟨hx, hs⟩
    · rw [if_neg hy]
      constructor
      · intro hx
        rcases List.mem_cons.mp hx with rfl | hx
        · exact ⟨List.mem_cons_self _ _, hy⟩
        · rw [ih] at hx
          exact ⟨List.mem_cons_of_mem _ hx.1,
            fun hs => hx.2 (List.mem_cons_of_mem _ hs)⟩
      · rintro ⟨hx, hs⟩
        by_cases hxy : x = y
        · subst hxy; exact List.mem_cons_self _ _
        · have hxys : x ∈ ys := (List.mem_cons.mp hx).resolve_left hxy
          refine List.mem_cons_of_mem _ ((ih _ _).mpr ⟨hxys, ?_⟩)
          intro hmem
          rcases List.mem_cons.mp hmem with h1 | h1
          · exact hxy h1
          · exact hs h1

theorem mem_pyDedup {α : Type} [DecidableEq α] (l : List α) (x : α) :
    x ∈ pyDedup l ↔ x ∈ l := by
  rw [pyDedup, mem_pyDedupAux]
  simp

theorem nodup_pyDedupAux {α : Type} [DecidableEq α] (l : List α) :
    ∀ seen : List α, (pyDedupAux seen l).Nodup := by
  induction l with
  | nil => intro _; exact List.nodup_nil
  | cons y ys ih =>
    intro seen
    rw [pyDedupAux]
    by_cases hy : y ∈ seen
    · rw [if_pos hy]; exact ih seen
    · rw [if_neg hy]
      refine List.nodup_cons.mpr ⟨?_, ih (y :: seen)⟩
      intro hmem
      exact ((mem_pyDedupAux ys (y :: seen) y).mp hmem).2 (List.mem_cons_self _ _)

theorem nodup_pyDedup {α : Type} [DecidableEq α] (l : List α) : (pyDedup l).Nodup :=
  nodup_pyDedupAux l []

theorem length_pyDedupAux_le {α : Type} [DecidableEq α] (l : List α) :
    ∀ seen : List α, (pyDedupAux seen l).length ≤ l.length := by
  induction l with
  | nil => intro _; exact Nat.le_refl 0
  | cons y ys ih =>
    intro seen
    rw [pyDedupAux]
    by_cases hy : y ∈ seen
    · rw [if_pos hy]; exact Nat.le_succ_of_le (ih seen)
    · rw [if_neg hy]; exact Nat.succ_le_succ (ih (y :: seen))

theorem length_pyDedup_le {α : Type} [DecidableEq α] (l : List α) :
    (pyDedup l).length ≤ l.length :=
  length_pyDedupAux_le l []

theorem one_lt_length_iff_of_nodup {α : Type} (l : List α) (h : l.Nodup) :
    1 < l.length ↔ ∃ a ∈ l, ∃ b ∈ l, a ≠ b := by
  cases l with
  | nil => simp
  | cons x xs =>
    cases xs with
    | nil => simp
    | cons y ys =>
      simp only [List.length_cons]
      constructor
      · intro _
        refine ⟨x, List.mem_cons_self _ _, y,
          List.mem_cons_of_mem _ (List.mem_cons_self _ _), ?_⟩
        intro hxy
        subst hxy
        exact (List.nodup_cons.mp h).1 (List.mem_cons_self _ _)
      · intro _
        omega

theorem one_lt_pyDedup_length_iff {α : Type} [DecidableEq α] (l : List α) :
    1 < (pyDedup l).length ↔ ∃ a ∈ l, ∃ b ∈ l, a ≠ b := by
  rw [one_lt_length_iff_of_nodup _ (nodup_pyDedup l)]
  simp only [mem_pyDedup]

/-- Membership in `find_exact_duplicates`, fully characterised. -/
theorem mem_find_exact_duplicates (corpus : List Occurrence) (g : ExactGroup) :
    g ∈ find_exact_duplicates corpus ↔
      ∃ p, p ∈ pyDedup (all_phrases corpus) ∧
        1 < (phrase_locations corpus p).length ∧
        1 < (pyDedup ((phrase_locations corpus p).map (fun l => l.file))).length ∧
        g = ExactGroup.mk p (phrase_locations corpus p).length
              (phrase_locations corpus p)
              (pyDedup ((phrase_locations corpus p).map (fun l => l.file))) := by
  rw [find_exact_duplicates, List.mem_filterMap]
  constructor
  · rintro ⟨p, hp, hsome⟩
    by_cases h1 : 1 < (phrase_locations corpus p).length
    · rw [if_pos h1] at hsome
      by_cases h2 : 1 < (pyDedup ((phrase_locations corpus p).map (fun l => l.file))).length
      · rw [if_pos h2] at hsome
        exact ⟨p, hp, h1, h2, (Option.some.injEq _ _ ▸ hsome).symm⟩
      · rw [if_neg h2] at hsome
        exact absurd hsome (Option.noConfusion)
    · rw [if_neg h1] at hsome
      exact absurd hsome (Option.noConfusion)
  · rintro ⟨p, hp, h1, h2, hg⟩
    refine ⟨p, hp, ?_⟩
    rw [if_pos h1, if_pos h2, hg]

/-- The phrases reported by `find_exact_duplicates`, as a list. -/
theorem map_phrase_find_exact_duplicates (corpus : List Occurrence) :
    (find_exact_duplicates corpus).map (fun g => g.phrase) =
      (pyDedup (all_phrases corpus)).filterMap (fun p =>
        if 1 < (phrase_locations corpus p).length then
          if 1 < (pyDedup ((phrase_locations corpus p).map (fun l => l.file))).length then
            some p
          else none
        else none) := by
  rw [find_exact_duplicates, List.map_filterMap]
  apply List.filterMap_congr
  intro p _
  by_cases h1 : 1 < (phrase_locations corpus p).length
  · by_cases h2 : 1 < (pyDedup ((phrase_locations corpus p).map (fun l => l.file))).length
    · simp only [if_pos h1, if_pos h2]
      rfl
    · simp only [if_pos h1, if_neg h2]
      rfl
  · simp only [if_neg h1]
    rfl

/-- C10: on the same loaded corpus, `find_exact_duplicates`
(phrase-reducer.py) and `find_cross_file_duplicates`
(quick-phrase-analysis.py) report exactly the same phrases, namely those
whose occurrences span more than one distinct file; the extra
`len(locations) > 1` pre-check of `find_exact_duplicates` is redundant
because more than one distinct file forces more than one occurrence. -/
theorem c10_exact_and_cross_file_agree (corpus : List Occurrence) :
    (find_exact_duplicates corpus).map (fun g => g.phrase) =
      (find_cross_file_duplicates corpus).map (fun r => r.1) ∧
    ∀ p, p ∈ (find_exact_duplicates corpus).map (fun g => g.phrase) ↔
      (p ∈ all_phrases corpus ∧
        ∃ f1 ∈ (phrase_locations corpus p).map (fun l => l.file),
          ∃ f2 ∈ (phrase_locations corpus p).map (fun l => l.file), f1 ≠ f2) := by
  have hforce : ∀ p : Phrase,
      1 < (pyDedup ((phrase_locations corpus p).map (fun l => l.file))).length →
      1 < (phrase_locations corpus p).length := by
    intro p h2
    have hle := length_pyDedup_le ((phrase_locations corpus p).map (fun l => l.file))
    rw [List.length_map] at hle
    omega
  constructor
  · rw [map_phrase_find_exact_duplicates, find_cross_file_duplicates,
      List.map_filterMap]
    apply List.filterMap_congr
    intro p _
    dsimp only
    by_cases h2 : 1 < (pyDedup ((phrase_locations corpus p).map (fun l => l.file))).length
    · rw [if_pos (hforce p h2), if_pos h2, if_pos h2]
      rfl
    · simp [if_neg h2]
  · intro p
    rw [map_phrase_find_exact_duplicates, List.mem_filterMap]
    constructor
    · rintro ⟨q, hq, hsome⟩
      by_cases h1 : 1 < (phrase_locations corpus q).length
      · by_cases h2 : 1 < (pyDedup ((phrase_locations corpus q).map (fun l => l.file))).length
        · rw [if_pos h1, if_pos h2, Option.some.injEq] at hsome
          subst hsome
          exact ⟨(mem_pyDedup _ _).mp hq,
            (one_lt_pyDedup_length_iff _).mp h2⟩
        · rw [if_pos h1, if_neg h2] at hsome
          exact absurd hsome Option.noConfusion
      · rw [if_neg h1] at hsome
        exact absurd hsome Option.noConfusion
    · rintro ⟨hp, hff⟩
      have h2 : 1 < (pyDedup ((phrase_locations corpus p).map (fun l => l.file))).length :=
        (one_lt_pyDedup_length_iff _).mpr hff
      exact ⟨p, (mem_pyDedup _ _).mpr hp, by rw [if_pos (hforce p h2), if_pos h2]⟩

/-- C6: `find_exact_duplicates` reports exactly the phrases whose occurrence
lists reference at least two distinct source files; each group carries the
phrase, the total occurrence count (the length of its occurrence list), the
occurrence list itself, and its distinct source files; and no phrase is
reported in more than one group. -/
theorem c6_find_exact_duplicates_spec (corpus : List Occurrence) :
    (∀ g ∈ find_exact_duplicates corpus,
        g.count = (phrase_locations corpus g.phrase).length ∧
        g.locations = phrase_locations corpus g.phrase ∧
        g.files.Nodup ∧
        (∀ f, f ∈ g.files ↔
          f ∈ (phrase_locations corpus g.phrase).map (fun l => l.file)) ∧
        (∃ f1 ∈ g.files, ∃ f2 ∈ g.files, f1 ≠ f2)) ∧
    (∀ p, (∃ g ∈ find_exact_duplicates corpus, g.phrase = p) ↔
        (p ∈ all_phrases corpus ∧
          ∃ f1 ∈ (phrase_locations corpus p).map (fun l => l.file),
            ∃ f2 ∈ (phrase_locations corpus p).map (fun l => l.file), f1 ≠ f2)) ∧
    ((find_exact_duplicates corpus).map (fun g => g.phrase)).Nodup := by
  refine ⟨?_, ?_, ?_⟩
  · intro g hg
    obtain ⟨p, _, h1, h2, hgeq⟩ := (mem_find_exact_duplicates corpus g).mp hg
    subst hgeq
    refine ⟨rfl, rfl, nodup_pyDedup _, fun f => mem_pyDedup _ _, ?_⟩
    have := (one_lt_pyDedup_length_iff
      ((phrase_locations corpus p).map (fun l => l.file))).mp h2
    obtain ⟨f1, hf1, f2, hf2, hne⟩ := this
    exact ⟨f1, (mem_pyDedup _ _).mpr hf1, f2, (mem_pyDedup _ _).mpr hf2, hne⟩
  · intro p
    constructor
    · rintro ⟨g, hg, hgp⟩
      obtain ⟨q, hq, h1, h2, hgeq⟩ := (mem_find_exact_duplicates corpus g).mp hg
      have hpq : q = p := by rw [hgeq] at hgp; exact hgp
      subst hpq
      exact ⟨(mem_pyDedup _ _).mp hq, (one_lt_pyDedup_length_iff _).mp h2⟩
    · rintro ⟨hp, hff⟩
      have h2 : 1 < (pyDedup ((phrase_locations corpus p).map (fun l => l.file))).length :=
        (one_lt_pyDedup_length_iff _).mpr hff
      have h1 : 1 < (phrase_locations corpus p).length := by
        have hle := length_pyDedup_le ((phrase_locations corpus p).map (fun l => l.file))
        rw [List.length_map] at hle
        omega
      refine ⟨ExactGroup.mk p (phrase_locations corpus p).length
        (phrase_locations corpus p)
        (pyDedup ((phrase_locations corpus p).map (fun l => l.file))), ?_, rfl⟩
      exact (mem_find_exact_duplicates corpus _).mpr
        ⟨p, (mem_pyDedup _ _).mpr hp, h1, h2, rfl⟩
  · rw [map_phrase_find_exact_duplicates]
    apply List.Nodup.filterMap ?_ (nodup_pyDedup _)
    intro a a' b hb hb'
    have ha : b = a := by
      by_cases h1 : 1 < (phrase_locations corpus a).length
      · by_cases h2 : 1 < (pyDedup ((phrase_locations corpus a).map (fun l => l.file))).length
        · rw [if_pos h1, if_pos h2, Option.mem_def, Option.some.injEq] at hb
          exact hb.symm
        · rw [if_pos h1, if_neg h2] at hb; simp at hb
      · rw [if_neg h1] at hb; simp at hb
    have ha' : b = a' := by
      by_cases h1 : 1 < (phrase_locations corpus a').length
      · by_cases h2 : 1 < (pyDedup ((phrase_locations corpus a').map (fun l => l.file))).length
        · rw [if_pos h1, if_pos h2, Option.mem_def, Option.some.injEq] at hb'
          exact hb'.symm
        · rw [if_pos h1, if_neg h2] at hb'; simp at hb'
      · rw [if_neg h1] at hb'; simp at hb'
    rw [← ha, ha']

/-- In a duplicate-free list at most one element equals `Q`. -/
theorem countP_eq_le_one_of_nodup {α : Type} [DecidableEq α] (l : List α)
    (hl : l.Nodup) (Q : α) : l.countP (fun x => decide (x = Q)) ≤ 1 := by
  induction l with
  | nil => rw [List.countP_nil]; omega
  | cons x xs ih =>
    rw [List.countP_cons]
    obtain ⟨hx, hxs⟩ := List.nodup_cons.mp hl
    by_cases hxq : x = Q
    · subst hxq
      have hz : xs.countP (fun y => decide (y = x)) = 0 :=
        List.countP_eq_zero.mpr (fun a ha haq => hx ((of_decide_eq_true haq) ▸ ha))
      simp [hz]
    · simpa [hxq] using ih hxs

/-- A sum over a duplicate-free list in which every term vanishes except the
one at `c`, which is at most one. -/
theorem sum_map_le_one {β : Type} [DecidableEq β] (l : List β) (f : β → Nat)
    (c : β) (hl : l.Nodup) (h0 : ∀ b ∈ l, b ≠ c → f b = 0) (hc : f c ≤ 1) :
    (l.map f).sum ≤ 1 := by
  induction l with
  | nil => simp
  | cons b bs ih =>
    rw [List.map_cons, List.sum_cons]
    obtain ⟨hb, hbs⟩ := List.nodup_cons.mp hl
    by_cases hbc : b = c
    · subst hbc
      have hz : (bs.map f).sum = 0 := by
        apply List.sum_eq_zero
        intro x hx
        obtain ⟨y, hy, hyx⟩ := List.mem_map.mp hx
        have hyb : y ≠ b := fun hyb => hb (hyb ▸ hy)
        rw [← hyx]
        exact h0 y (List.mem_cons_of_mem _ hy) hyb
      omega
    · have hz : f b = 0 := h0 b (List.mem_cons_self _ _) hbc
      have := ih hbs (fun x hx => h0 x (List.mem_cons_of_mem _ hx))
      omega

/-- C4: two phrases whose normalized forms coincide are never reported as a
near-duplicate pair, in either orientation; the scanner skips such pairs
before any similarity score is computed. -/
theorem c4_normalized_equal_never_reported (corpus : List Occurrence)
    (uniq : List Phrase) (t : ℚ) (P Q : Phrase)
    (hnorm : normalize_phrase P = normalize_phrase Q) :
    pairOccurrences (find_near_duplicates corpus uniq t) P Q = 0 := by
  rw [pairOccurrences, ← List.countP_eq_length_filter]
  apply List.countP_eq_zero.mpr
  intro d hd hpred
  obtain ⟨p1, p2, _, _, _, _, _, h3, _, hdeq⟩ :=
    (mem_find_near_duplicates corpus uniq t d).mp hd
  rw [decide_eq_true_eq, hdeq] at hpred
  rcases hpred with ⟨h5, h6⟩ | ⟨h5, h6⟩
  · simp only at h5 h6
    rw [h5, h6] at h3
    exact h3 hnorm
  · simp only at h5 h6
    rw [h5, h6] at h3
    exact h3 hnorm.symm

/-- C4 witness: with the concrete corpus `corpusCase`, whose two phrases are
normalized-equal, no pair over them is ever reported. -/
theorem c4_witness :
    normalize_phrase "The  Blade".toList = normalize_phrase "the blade".toList ∧
    pairOccurrences (find_near_duplicates corpusCase uniqCase (mkRat 17 20))
      "The  Blade".toList "the blade".toList = 0 :=
  ⟨by decide,
   c4_normalized_equal_never_reported corpusCase uniqCase (mkRat 17 20)
     "The  Blade".toList "the blade".toList (by decide)⟩

/-- C5: whenever the scanner computes a similarity score for an anchor `p1`
and a candidate `p2`, the candidate's length bucket lies within radius 2 of
the anchor's (bucket width 10); in particular a 50-character phrase is never
scored against a 10-character phrase. -/
theorem c5_bucket_admissibility (uniq : List Phrase) (p1 p2 : Phrase)
    (h : p2 ∈ scoredPhrases uniq p1) :
    ((lengthBucket p1 : ℤ) - 2 ≤ (lengthBucket p2 : ℤ) ∧
      (lengthBucket p2 : ℤ) ≤ (lengthBucket p1 : ℤ) + 2) ∧
    ¬ (p1.length = 50 ∧ p2.length = 10) := by
  have hc : p2 ∈ candidatePhrases uniq p1 := by
    have h1 := (List.mem_filter.mp h).1
    exact (List.mem_filter.mp h1).1
  rw [candidatePhrases, List.mem_flatMap] at hc
  obtain ⟨b, hb, hp2⟩ := hc
  rw [bucketPhrases, List.mem_filter] at hp2
  have hbeq : lengthBucket p2 = b := of_decide_eq_true hp2.2
  rw [bucketRange, List.mem_filter, List.mem_range] at hb
  have hble : lengthBucket p1 - 2 ≤ b := of_decide_eq_true hb.2
  have hblt : b < lengthBucket p1 + 3 := hb.1
  have hb2 : lengthBucket p1 - 2 ≤ lengthBucket p2 := hbeq ▸ hble
  have hb3 : lengthBucket p2 < lengthBucket p1 + 3 := hbeq ▸ hblt
  refine ⟨⟨by omega, by omega⟩, ?_⟩
  rintro ⟨h50, h10⟩
  unfold lengthBucket at hb2 hb3
  rw [h50, h10] at hb2 hb3
  omega

/-- C5 witness: in the corpus `corpusAB` the scanner scores the candidate
`"aaaa"` against the anchor `"aaaab"`, and the bucket bound holds there. -/
theorem c5_witness :
    ("aaaa".toList ∈ scoredPhrases uniqAB "aaaab".toList) ∧
    ((lengthBucket "aaaab".toList : ℤ) - 2 ≤ (lengthBucket "aaaa".toList : ℤ) ∧
      (lengthBucket "aaaa".toList : ℤ) ≤ (lengthBucket "aaaab".toList : ℤ) + 2) ∧
    ¬ ("aaaab".toList.length = 50 ∧ "aaaa".toList.length = 10) :=
  ⟨by decide, c5_bucket_admissibility uniqAB "aaaab".toList "aaaa".toList (by decide)⟩

/-- C8: raising the similarity threshold can only shrink the reported pair
set: at `t1 ≤ t2` every pair reported at `t2` is reported at `t1`, and the
pair count at `t2` is at most the pair count at `t1`. -/
theorem c8_threshold_monotonicity (corpus : List Occurrence) (uniq : List Phrase)
    (t1 t2 : ℚ) (h : t1 ≤ t2) :
    (∀ d ∈ find_near_duplicates corpus uniq t2, d ∈ find_near_duplicates corpus uniq t1) ∧
    (find_near_duplicates corpus uniq t2).length ≤
      (find_near_duplicates corpus uniq t1).length := by
  constructor
  · intro d hd
    rw [mem_find_near_duplicates] at hd ⊢
    obtain ⟨p1, p2, a1, a2, a3, a4, a5, a6, a7, a8⟩ := hd
    exact ⟨p1, p2, a1, a2, a3, a4, a5, a6, le_trans h a7, a8⟩
  · rw [find_near_duplicates_eq, find_near_duplicates_eq, List.length_flatMap,
      List.length_flatMap]
    apply List.sum_le_sum
    intro p1 _
    simp only [Function.comp_apply]
    rw [emittedFor_eq, emittedFor_eq, List.length_map, List.length_map]
    apply List.Sublist.length_le
    apply List.monotone_filter_right
    intro p2 hp2
    rw [decide_eq_true_eq] at hp2 ⊢
    exact le_trans h hp2

/-- C8 witness: on `corpusAB`, the pair reported at threshold 7/8 is also
reported at threshold 17/20, and the counts are ordered. -/
theorem c8_witness :
    (NearDup.mk "aaaab".toList "aaaa".toList (mkRat 8 9)
        (phrase_locations corpusAB "aaaab".toList)
        (phrase_locations corpusAB "aaaa".toList) ∈
      find_near_duplicates corpusAB uniqAB (mkRat 17 20)) ∧
    (find_near_duplicates corpusAB uniqAB (mkRat 7 8)).length ≤
      (find_near_duplicates corpusAB uniqAB (mkRat 17 20)).length := by
  have hmono := c8_threshold_monotonicity corpusAB uniqAB (mkRat 17 20) (mkRat 7 8)
    (by decide)
  exact ⟨hmono.1 _ (by decide), hmono.2⟩

/-- C3 (amended): `find_near_duplicates` performs no configuration
validation; the comparison counter is independent of the threshold, and it
counts exactly the candidate pairs that pass the identity and length-delta
guards. -/
theorem c3_no_threshold_validation (corpus : List Occurrence) (uniq : List Phrase)
    (t t2 : ℚ) :
    total_comparisons corpus uniq t = total_comparisons corpus uniq t2 ∧
    total_comparisons corpus uniq t =
      (uniq.map (fun p1 => (comparedPhrases uniq p1).length)).sum := by
  constructor
  · rw [total_comparisons_eq, total_comparisons_eq]
  · rw [total_comparisons_eq]
    apply congrArg
    apply List.map_congr_left
    intro p1 _
    exact comparisonsFor_eq uniq p1

/-- C3 counterexample: with `similarityThreshold = 1.01` the scan still runs
on `corpusAB`: comparisons are performed (two of them) and the run completes,
reporting no pairs; nothing fails validation. -/
theorem c3_counterexample :
    total_comparisons corpusAB uniqAB (mkRat 101 100) = 2 ∧
    0 < total_comparisons corpusAB uniqAB (mkRat 101 100) ∧
    find_near_duplicates corpusAB uniqAB (mkRat 101 100) = [] := by decide

/-- C2 (amended): the membership of the near-duplicate result does not depend
on the enumeration order of `list(set(all_phrases))`: any two enumerations of
the same phrase set yield the same set of reported pairs (though, as the
counterexample shows, not the same list order). -/
theorem c2_result_set_enumeration_independent (corpus : List Occurrence) (t : ℚ)
    (uniq1 uniq2 : List Phrase)
    (h1 : uniq1.Perm (pyDedup (all_phrases corpus)))
    (h2 : uniq2.Perm (pyDedup (all_phrases corpus)))
    (d : NearDup) :
    d ∈ find_near_duplicates corpus uniq1 t ↔ d ∈ find_near_duplicates corpus uniq2 t := by
  have hmem : ∀ p : Phrase, p ∈ uniq1 ↔ p ∈ uniq2 := by
    intro p
    rw [h1.mem_iff, h2.mem_iff]
  rw [mem_find_near_duplicates, mem_find_near_duplicates]
  constructor
  · rintro ⟨p1, p2, a1, a2, a3, a4, a5, a6, a7, a8⟩
    exact ⟨p1, p2, (hmem p1).mp a1, (hmem p2).mp a2, a3, a4, a5, a6, a7, a8⟩
  · rintro ⟨p1, p2, a1, a2, a3, a4, a5, a6, a7, a8⟩
    exact ⟨p1, p2, (hmem p1).mpr a1, (hmem p2).mpr a2, a3, a4, a5, a6, a7, a8⟩

/-- C2 counterexample: the two enumerations of the phrase set of `corpusAB`
(which CPython's unordered `set` iteration may each produce) give different
result lists — the reported pairs come out in a different order — so a rerun
is not guaranteed to produce an identical report. -/
theorem c2_counterexample :
    uniqAB.Perm uniqBA ∧ uniqAB.Nodup ∧ uniqBA.Nodup ∧
    find_near_duplicates corpusAB uniqAB (mkRat 17 20) ≠
      find_near_duplicates corpusAB uniqBA (mkRat 17 20) := by decide

/-- C2 witness: the concrete pair reported on `corpusAB` is reported under
both enumerations. -/
theorem c2_witness :
    (NearDup.mk "aaaab".toList "aaaa".toList (mkRat 8 9)
        (phrase_locations corpusAB "aaaab".toList)
        (phrase_locations corpusAB "aaaa".toList) ∈
      find_near_duplicates corpusAB uniqAB (mkRat 17 20)) ↔
    (NearDup.mk "aaaab".toList "aaaa".toList (mkRat 8 9)
        (phrase_locations corpusAB "aaaab".toList)
        (phrase_locations corpusAB "aaaa".toList) ∈
      find_near_duplicates corpusAB uniqBA (mkRat 17 20)) :=
  c2_result_set_enumeration_independent corpusAB (mkRat 17 20) uniqAB uniqBA
    (by decide) (by decide) _

/-- Among the candidates drawn for any anchor, a given phrase `Q` occurs at
most once when the unique-phrase enumeration has no duplicates (each phrase
lives in exactly one length bucket and the bucket range has no repeats). -/
theorem countP_candidates_le_one (uniq : List Phrase) (hnodup : uniq.Nodup)
    (P Q : Phrase) :
    (candidatePhrases uniq P).countP (fun x => decide (x = Q)) ≤ 1 := by
  rw [candidatePhrases, List.countP_flatMap]
  apply sum_map_le_one _ _ (lengthBucket Q)
    (List.Nodup.filter _ (List.nodup_range _))
  · intro b _ hbc
    simp only [Function.comp_apply]
    apply List.countP_eq_zero.mpr
    intro x hx hxq
    rw [bucketPhrases, List.mem_filter] at hx
    have hxb : lengthBucket x = b := of_decide_eq_true hx.2
    rw [of_decide_eq_true hxq] at hxb
    exact hbc hxb.symm
  · simp only [Function.comp_apply]
    exact le_trans (List.Sublist.countP_le _ (List.filter_sublist uniq))
      (countP_eq_le_one_of_nodup uniq hnodup Q)

/-- C1 (amended): without a canonical-order guard the scanner can emit an
unordered pair in both orientations, but each ordered pair `(P, Q)` is
emitted at most once when the anchors are enumerated without duplicates. -/
theorem c1_ordered_pair_at_most_once (corpus : List Occurrence)
    (uniq : List Phrase) (t : ℚ) (P Q : Phrase)
    (huniq : uniq.Perm (pyDedup (all_phrases corpus))) :
    orderedPairOccurrences (find_near_duplicates corpus uniq t) P Q ≤ 1 := by
  have hnodup : uniq.Nodup := huniq.nodup_iff.mpr (nodup_pyDedup _)
  rw [orderedPairOccurrences, ← List.countP_eq_length_filter,
    find_near_duplicates_eq, List.countP_flatMap]
  apply sum_map_le_one uniq _ P hnodup
  · intro p1 _ hp1
    simp only [Function.comp_apply]
    apply List.countP_eq_zero.mpr
    intro d hd hpred
    rw [emittedFor_eq] at hd
    obtain ⟨p2, _, hdeq⟩ := List.mem_map.mp hd
    rw [decide_eq_true_eq, ← hdeq] at hpred
    exact hp1 hpred.1
  · simp only [Function.comp_apply]
    rw [emittedFor_eq, List.countP_map]
    have hpt : ∀ p2 ∈ ((scoredPhrases uniq P).filter
          (fun p2 => decide (t ≤ similarity_ratio (normalize_phrase P) (normalize_phrase p2)))),
        ((fun d => decide (d.phrase1 = P ∧ d.phrase2 = Q)) ∘
          (fun p2 => NearDup.mk P p2
            (similarity_ratio (normalize_phrase P) (normalize_phrase p2))
            (phrase_locations corpus P) (phrase_locations corpus p2))) p2 = true ↔
        decide (p2 = Q) = true := by
      intro p2 _
      simp only [Function.comp_apply]
      by_cases hq : p2 = Q
      · simp [hq]
      · simp [hq]
    rw [List.countP_congr hpt]
    have hsub1 : ((scoredPhrases uniq P).filter
        (fun p2 => decide (t ≤ similarity_ratio (normalize_phrase P) (normalize_phrase p2)))).Sublist
        (candidatePhrases uniq P) := by
      refine List.Sublist.trans (List.filter_sublist _) ?_
      refine List.Sublist.trans (List.filter_sublist _) (List.filter_sublist _)
    exact le_trans (hsub1.countP_le _) (countP_candidates_le_one uniq hnodup P Q)

/-- C1 counterexample: on `corpusAB` (threshold 0.85) the unordered pair
of its two phrases is reported twice, once in each orientation: there is no
canonical-order guard in the code. -/
theorem c1_counterexample :
    1 < pairOccurrences (find_near_duplicates corpusAB uniqAB (mkRat 17 20))
          "aaaab".toList "aaaa".toList ∧
    pairOccurrences (find_near_duplicates corpusAB uniqAB (mkRat 17 20))
      "aaaab".toList "aaaa".toList = 2 := by decide

/-- C1 witness: on `corpusAB` the ordered pair is reported exactly once. -/
theorem c1_witness :
    orderedPairOccurrences (find_near_duplicates corpusAB uniqAB (mkRat 17 20))
      "aaaab".toList "aaaa".toList ≤ 1 :=
  c1_ordered_pair_at_most_once corpusAB uniqAB (mkRat 17 20)
    "aaaab".toList "aaaa".toList (by decide)

/-- C6 witness: scenario A — the phrase occurring once in `sword.json` and
once in `dagger.json` forms a group with count 2 carrying its occurrence
list, and no phrase is reported twice. -/
theorem c6_witness :
    (ExactGroup.mk "The blade cuts deep".toList 2
        (phrase_locations corpusBlade "The blade cuts deep".toList)
        ["sword.json", "dagger.json"]).count =
      (phrase_locations corpusBlade
        (ExactGroup.mk "The blade cuts deep".toList 2
          (phrase_locations corpusBlade "The blade cuts deep".toList)
          ["sword.json", "dagger.json"]).phrase).length ∧
    ((find_exact_duplicates corpusBlade).map (fun g => g.phrase)).Nodup :=
  ⟨((c6_find_exact_duplicates_spec corpusBlade).1 _ (by decide)).1,
   (c6_find_exact_duplicates_spec corpusBlade).2.2⟩

/-- C10 witness: the two scripts report the same phrase list on
`corpusBlade`. -/
theorem c10_witness :
    (find_exact_duplicates corpusBlade).map (fun g => g.phrase) =
      (find_cross_file_duplicates corpusBlade).map (fun r => r.1) :=
  (c10_exact_and_cross_file_agree corpusBlade).1

/-- C9: for a non-empty corpus the estimated reduction percentage is
`(Σ (count - 1) over exact groups + near-duplicate pair count) / total
instances * 100`; an empty corpus is valid and produces the all-zero report
(the division is guarded, not an error). -/
theorem c9_report_statistics (corpus : List Occurrence) (uniq : List Phrase)
    (t : ℚ) (huniq : uniq.Perm (pyDedup (all_phrases corpus))) :
    (corpus ≠ [] →
      (generate_report corpus uniq t).reductionPct =
        ((((find_exact_duplicates corpus).map (fun g => g.count - 1)).sum +
          (find_near_duplicates corpus uniq t).length : Nat) : ℚ) /
          ((all_phrases corpus).length : ℚ) * 100) ∧
    (corpus = [] → generate_report corpus uniq t = ReportStats.mk 0 0 0 0 0 0) := by
  constructor
  · intro hne
    have hlen : (all_phrases corpus).length ≠ 0 := by
      rw [all_phrases, List.length_map]
      exact fun h => hne (List.length_eq_zero.mp h)
    show (if (all_phrases corpus).length ≠ 0 then _ else _) = _
    rw [if_pos hlen]
  · intro hnil
    subst hnil
    have huq : uniq = [] := by
      rw [List.eq_nil_iff_forall_not_mem]
      intro p hp
      have := huniq.mem_iff.mp hp
      rw [mem_pyDedup] at this
      exact absurd this (List.not_mem_nil p)
    subst huq
    rfl

/-- C9 witness: the non-empty corpus `corpusBlade` (one exact-duplicate
group of count 2, no near-duplicate pairs) gets reduction percentage
`(1 + 0) / 2 * 100`, and the empty corpus yields the all-zero report. -/
theorem c9_witness :
    (generate_report corpusBlade uniqBlade (mkRat 17 20)).reductionPct =
      ((((find_exact_duplicates corpusBlade).map (fun g => g.count - 1)).sum +
        (find_near_duplicates corpusBlade uniqBlade (mkRat 17 20)).length : Nat) : ℚ) /
        ((all_phrases corpusBlade).length : ℚ) * 100 ∧
    generate_report [] [] (mkRat 17 20) = ReportStats.mk 0 0 0 0 0 0 :=
  ⟨(c9_report_statistics corpusBlade uniqBlade (mkRat 17 20) (by decide)).1
      (by decide),
   (c9_report_statistics [] [] (mkRat 17 20) (by decide)).2 rfl⟩

/-- C7 counterexample: `SequenceMatcher.ratio` is not symmetric.  On the
pair of strings below the greedy matcher finds total matched size 2 in one
order (the tie between the blocks `"ab"` and `"cd"` is broken towards
`"ab"`, which kills the rest) but 3 in the other (the tie is broken towards
`"cd"`, and the `'e'` still matches in the left segment). -/
theorem c7_counterexample :
    similarity_ratio "abefcd".toList "ecdab".toList ≠
      similarity_ratio "ecdab".toList "abefcd".toList ∧
    similarity_ratio "abefcd".toList "ecdab".toList = mkRat 4 11 ∧
    similarity_ratio "ecdab".toList "abefcd".toList = mkRat 6 11 := by decide

theorem mem_b2jAll (b : List Char) (c : Char) (j : Nat) :
    j ∈ b2jAll b c ↔ j < b.length ∧ b.get? j = some c := by
  rw [b2jAll, List.mem_filter, List.mem_range]
  constructor
  · rintro ⟨h1, h2⟩
    exact ⟨h1, of_decide_eq_true h2⟩
  · rintro ⟨h1, h2⟩
    exact ⟨h1, decide_eq_true h2⟩

theorem pairwise_b2jAll (b : List Char) (c : Char) :
    (b2jAll b c).Pairwise (· < ·) :=
  List.Pairwise.sublist (List.filter_sublist _) (List.pairwise_lt_range _)

theorem b2j_of_popular (b : List Char) (c : Char) (h : sPopular b c) :
    b2j b c = [] := by
  rw [b2j]
  exact if_pos h

theorem b2j_of_not_popular (b : List Char) (c : Char) (h : ¬ sPopular b c) :
    b2j b c = b2jAll b c := by
  rw [b2j]
  exact if_neg h

theorem nonPopAt_true_iff (s : List Char) (x : Nat) :
    nonPopAt s x = true ↔ ∃ c, s.get? x = some c ∧ ¬ sPopular s c := by
  rw [nonPopAt]
  cases h : s.get? x with
  | none => simp
  | some c => simp [h]

theorem D_le_succ (s : List Char) : ∀ x, D s x ≤ x + 1 := by
  intro x
  induction x with
  | zero =>
    rw [D]
    split
    · omega
    · omega
  | succ m ih =>
    rw [D]
    split
    · omega
    · omega

theorem D_eq_of_nonPop (s : List Char) (x : Nat) (h : nonPopAt s x = true) :
    D s x = Dprev s x + 1 := by
  cases x with
  | zero => rw [D, if_pos h, Dprev]
  | succ m => rw [D, if_pos h, Dprev]

theorem D_eq_zero_of_pop (s : List Char) (x : Nat) (h : nonPopAt s x = false) :
    D s x = 0 := by
  cases x with
  | zero => rw [D, h]; simp
  | succ m => rw [D, h]; simp

/-- One inner-loop step of `find_longest_match` over the full range. -/
theorem flmStep_eq (bhi : Nat) (old : Nat → Nat) (i : Nat)
    (acc : FlmBest × (Nat → Nat)) (j : Nat) (h : j < bhi) :
    flmStep 0 bhi old i acc j =
      ((if acc.1.bestsize < (if j = 0 then 0 else old (j - 1)) + 1
        then FlmBest.mk (i + 1 - ((if j = 0 then 0 else old (j - 1)) + 1))
               (j + 1 - ((if j = 0 then 0 else old (j - 1)) + 1))
               ((if j = 0 then 0 else old (j - 1)) + 1)
        else acc.1),
       Function.update acc.2 j ((if j = 0 then 0 else old (j - 1)) + 1)) := by
  rw [flmStep, if_pos ⟨Nat.zero_le j, h⟩]

/-- The inner-loop chain value at a position of the row character is bounded
by the non-popular run ending at that position. -/
theorem kval_le_D_self (s : List Char) (c : Char) (i : Nat) (old : Nat → Nat)
    (Hold : ∀ j, old j ≤ min (Dprev s i) (D s j)) (hnp : ¬ sPopular s c)
    (j : Nat) (hj : j ∈ b2jAll s c) :
    (if j = 0 then 0 else old (j - 1)) + 1 ≤ D s j := by
  obtain ⟨hjlt, hjc⟩ := (mem_b2jAll s c j).mp hj
  have hnpj : nonPopAt s j = true := (nonPopAt_true_iff s j).mpr ⟨c, hjc, hnp⟩
  have hDj : D s j = Dprev s j + 1 := D_eq_of_nonPop s j hnpj
  cases j with
  | zero => rw [hDj]; simp
  | succ m =>
    rw [hDj]
    have hm : old m ≤ D s m := le_trans (Hold m) (min_le_right _ _)
    have hDp : Dprev s (m + 1) = D s m := rfl
    simp only [Nat.succ_ne_zero, if_false, Nat.add_sub_cancel, hDp]
    omega

/-- The inner-loop chain value is bounded by the non-popular run ending at
the current row. -/
theorem kval_le_D_row (s : List Char) (i : Nat) (old : Nat → Nat)
    (Hold : ∀ j, old j ≤ min (Dprev s i) (D s j))
    (hnpi : nonPopAt s i = true) (j : Nat) :
    (if j = 0 then 0 else old (j - 1)) + 1 ≤ D s i := by
  have hDi : D s i = Dprev s i + 1 := D_eq_of_nonPop s i hnpi
  cases j with
  | zero => rw [hDi]; simp
  | succ m =>
    have hm : old m ≤ Dprev s i := le_trans (Hold m) (min_le_left _ _)
    rw [hDi]
    simp only [Nat.succ_ne_zero, if_false, Nat.add_sub_cancel]
    omega

/-- On the diagonal the chain value is exactly the run length. -/
theorem kval_diag (s : List Char) (i : Nat) (old : Nat → Nat)
    (Holdx : i ≠ 0 → old (i - 1) = D s (i - 1))
    (hnpi : nonPopAt s i = true) :
    (if i = 0 then 0 else old (i - 1)) + 1 = D s i := by
  have hDi : D s i = Dprev s i + 1 := D_eq_of_nonPop s i hnpi
  cases i with
  | zero => rw [hDi]; rfl
  | succ m =>
    rw [hDi]
    have := Holdx (Nat.succ_ne_zero m)
    simp only [Nat.succ_ne_zero, if_false, Nat.add_sub_cancel] at this ⊢
    rw [this]
    rfl

/-- Inner loop, positions before the diagonal: the best block does not move
(every chain there is dominated by an earlier run) and the new row stays
bounded. -/
theorem flmFold_phaseA (s : List Char) (c : Char) (i : Nat) (old : Nat → Nat)
    (Hold : ∀ j, old j ≤ min (Dprev s i) (D s j)) (hnp : ¬ sPopular s c)
    (hnpi : nonPopAt s i = true) :
    ∀ js : List Nat, (∀ j ∈ js, j ∈ b2jAll s c ∧ j < i) →
    ∀ (best : FlmBest) (new : Nat → Nat),
      (∀ x, x < i → D s x ≤ best.bestsize) →
      (∀ j, new j ≤ min (D s i) (D s j)) →
      (js.foldl (flmStep 0 s.length old i) (best, new)).1 = best ∧
      (∀ j, (js.foldl (flmStep 0 s.length old i) (best, new)).2 j ≤
        min (D s i) (D s j)) := by
  intro js
  induction js with
  | nil => intro _ best new _ hnew; exact ⟨rfl, hnew⟩
  | cons j js ih =>
    intro hjs best new hbest hnew
    obtain ⟨hjmem, hjlt⟩ := hjs j (List.mem_cons_self _ _)
    have hjlen : j < s.length := ((mem_b2jAll s c j).mp hjmem).1
    rw [List.foldl_cons, flmStep_eq s.length old i (best, new) j hjlen]
    have hkD : (if j = 0 then 0 else old (j - 1)) + 1 ≤ D s j :=
      kval_le_D_self s c i old Hold hnp j hjmem
    have hnoup : ¬ (best.bestsize < (if j = 0 then 0 else old (j - 1)) + 1) := by
      have := hbest j hjlt
      omega
    rw [if_neg hnoup]
    apply ih (fun x hx => hjs x (List.mem_cons_of_mem _ hx)) best _ hbest
    intro j2
    by_cases hj2 : j2 = j
    · subst hj2
      rw [Function.update_same]
      exact le_min (kval_le_D_row s i old Hold hnpi j2) hkD
    · rw [Function.update_noteq hj2]
      exact hnew j2

/-- Inner loop, positions after the diagonal: nothing beats the best block
any more, and the diagonal entry of the new row survives. -/
theorem flmFold_phaseB (s : List Char) (c : Char) (i : Nat) (old : Nat → Nat)
    (Hold : ∀ j, old j ≤ min (Dprev s i) (D s j)) (hnp : ¬ sPopular s c)
    (hnpi : nonPopAt s i = true) :
    ∀ js : List Nat, (∀ j ∈ js, j ∈ b2jAll s c ∧ i < j) →
    ∀ (best : FlmBest) (new : Nat → Nat),
      D s i ≤ best.bestsize →
      (∀ j, new j ≤ min (D s i) (D s j)) →
      (js.foldl (flmStep 0 s.length old i) (best, new)).1 = best ∧
      (∀ j, (js.foldl (flmStep 0 s.length old i) (best, new)).2 j ≤
        min (D s i) (D s j)) ∧
      (js.foldl (flmStep 0 s.length old i) (best, new)).2 i = new i := by
  intro js
  induction js with
  | nil => intro _ best new _ hnew; exact ⟨rfl, hnew, rfl⟩
  | cons j js ih =>
    intro hjs best new hbest hnew
    obtain ⟨hjmem, hjgt⟩ := hjs j (List.mem_cons_self _ _)
    have hjlen : j < s.length := ((mem_b2jAll s c j).mp hjmem).1
    rw [List.foldl_cons, flmStep_eq s.length old i (best, new) j hjlen]
    have hnoup : ¬ (best.bestsize < (if j = 0 then 0 else old (j - 1)) + 1) := by
      have := kval_le_D_row s i old Hold hnpi j
      omega
    rw [if_neg hnoup]
    have hres := ih (fun x hx => hjs x (List.mem_cons_of_mem _ hx)) best
      (Function.update new j ((if j = 0 then 0 else old (j - 1)) + 1)) hbest ?_
    · refine ⟨hres.1, hres.2.1, ?_⟩
      rw [hres.2.2, Function.update_noteq (Nat.ne_of_lt hjgt)]
    · intro j2
      by_cases hj2 : j2 = j
      · subst hj2
        rw [Function.update_same]
        exact le_min (kval_le_D_row s i old Hold hnpi j2)
          (kval_le_D_self s c i old Hold hnp j2 hjmem)
      · rw [Function.update_noteq hj2]
        exact hnew j2

/-- The row loop of `find_longest_match` preserves the self-comparison
invariant `rowInv`. -/
theorem flmRow_inv (s : List Char) (i : Nat) (hi : i < s.length)
    (st : FlmBest × (Nat → Nat)) (h : rowInv s i st) :
    rowInv s (i + 1) (flmRow s s 0 s.length st i) := by
  obtain ⟨hdiag, hbound, hbest, Hold, Holdx⟩ := h
  have hgc : s.get? i = some (s.get ⟨i, hi⟩) := List.get?_eq_get hi
  simp only [flmRow, hgc]
  by_cases hp : sPopular s (s.get ⟨i, hi⟩)
  · rw [b2j_of_popular _ _ hp]
    simp only [List.foldl_nil]
    have hnpi : nonPopAt s i = false := by
      rw [nonPopAt, hgc]
      show (!decide (sPopular s (s.get ⟨i, hi⟩))) = false
      rw [decide_eq_true hp]
      rfl
    have hDi : D s i = 0 := D_eq_zero_of_pop s i hnpi
    refine ⟨hdiag, hbound, ?_, ?_, ?_⟩
    · intro x hx
      by_cases hxi : x = i
      · subst hxi
        rw [hDi]
        exact Nat.zero_le _
      · exact hbest x (by omega)
    · intro j
      exact Nat.zero_le _
    · intro _
      simp only [Nat.add_sub_cancel]
      exact hDi.symm
  · rw [b2j_of_not_popular _ _ hp]
    have hnpi : nonPopAt s i = true := by
      rw [nonPopAt, hgc]
      show (!decide (sPopular s (s.get ⟨i, hi⟩))) = true
      rw [decide_eq_false hp]
      rfl
    have hmem_i : i ∈ b2jAll s (s.get ⟨i, hi⟩) := (mem_b2jAll s _ i).mpr ⟨hi, hgc⟩
    obtain ⟨l1, l2, hsplit⟩ := List.append_of_mem hmem_i
    have hpw : (b2jAll s (s.get ⟨i, hi⟩)).Pairwise (· < ·) := pairwise_b2jAll s _
    rw [hsplit] at hpw
    obtain ⟨hpw1, hpw2, hcross⟩ := List.pairwise_append.mp hpw
    have hl1 : ∀ j ∈ l1, j ∈ b2jAll s (s.get ⟨i, hi⟩) ∧ j < i := by
      intro j hj
      exact ⟨hsplit ▸ List.mem_append_left _ hj,
        hcross j hj i (List.mem_cons_self _ _)⟩
    have hl2 : ∀ j ∈ l2, j ∈ b2jAll s (s.get ⟨i, hi⟩) ∧ i < j := by
      intro j hj
      exact ⟨hsplit ▸ List.mem_append_right _ (List.mem_cons_of_mem _ hj),
        (List.pairwise_cons.mp hpw2).1 j hj⟩
    rw [hsplit, List.foldl_append, List.foldl_cons]
    have hA := flmFold_phaseA s (s.get ⟨i, hi⟩) i st.2 Hold hp hnpi l1 hl1 st.1
      (fun _ => 0) hbest (fun j => Nat.zero_le _)
    set mid := l1.foldl (flmStep 0 s.length st.2 i) (st.1, fun _ => 0) with hmid
    rw [flmStep_eq s.length st.2 i mid i hi]
    have hkdiag : (if i = 0 then 0 else st.2 (i - 1)) + 1 = D s i :=
      kval_diag s i st.2 Holdx hnpi
    rw [hkdiag, hA.1]
    have hDle : D s i ≤ i + 1 := D_le_succ s i
    by_cases hup : st.1.bestsize < D s i
    · rw [if_pos hup]
      have hB := flmFold_phaseB s (s.get ⟨i, hi⟩) i st.2 Hold hp hnpi l2 hl2
        (FlmBest.mk (i + 1 - D s i) (i + 1 - D s i) (D s i))
        (Function.update mid.2 i (D s i)) (le_refl _) ?_
      · refine ⟨?_, ?_, ?_, ?_, ?_⟩
        · rw [hB.1]
        · rw [hB.1]
          show i + 1 - D s i + D s i ≤ s.length
          omega
        · intro x hx
          rw [hB.1]
          show D s x ≤ D s i
          by_cases hxi : x = i
          · subst hxi; exact le_refl _
          · have := hbest x (by omega)
            omega
        · intro j
          exact hB.2.1 j
        · intro _
          simp only [Nat.add_sub_cancel]
          rw [hB.2.2, Function.update_same]
      · intro j
        by_cases hj : j = i
        · subst hj
          rw [Function.update_same]
          exact le_min (le_refl _) (le_refl _)
        · rw [Function.update_noteq hj]
          exact hA.2 j
    · rw [if_neg hup]
      have hge : D s i ≤ st.1.bestsize := Nat.le_of_not_lt hup
      have hB := flmFold_phaseB s (s.get ⟨i, hi⟩) i st.2 Hold hp hnpi l2 hl2
        st.1 (Function.update mid.2 i (D s i)) hge ?_
      · refine ⟨?_, ?_, ?_, ?_, ?_⟩
        · rw [hB.1]; exact hdiag
        · rw [hB.1]; exact hbound
        · intro x hx
          rw [hB.1]
          by_cases hxi : x = i
          · subst hxi; exact hge
          · exact hbest x (by omega)
        · intro j
          exact hB.2.1 j
        · intro _
          simp only [Nat.add_sub_cancel]
          rw [hB.2.2, Function.update_same]
      · intro j
        by_cases hj : j = i
        · subst hj
          rw [Function.update_same]
          exact le_min (le_refl _) (le_refl _)
        · rw [Function.update_noteq hj]
          exact hA.2 j

/-- The full scan of a self-comparison satisfies the invariant at every
prefix of rows. -/
theorem flmScan_inv (s : List Char) :
    ∀ m, m ≤ s.length →
      rowInv s m ((List.range m).foldl (flmRow s s 0 s.length)
        (FlmBest.mk 0 0 0, fun _ => 0)) := by
  intro m
  induction m with
  | zero =>
    intro _
    refine ⟨rfl, Nat.zero_le _, ?_, ?_, ?_⟩
    · intro x hx
      exact absurd hx (Nat.not_lt_zero x)
    · intro j
      exact Nat.zero_le _
    · intro h0
      exact absurd rfl h0
  | succ m ih =>
    intro hm
    rw [List.range_succ, List.foldl_append, List.foldl_cons, List.foldl_nil]
    exact flmRow_inv s m (by omega) _ (ih (by omega))

theorem flmScan_self (s : List Char) :
    rowInv s s.length (flmScan s s 0 s.length 0 s.length) := by
  rw [flmScan, List.drop_zero]
  exact flmScan_inv s s.length (le_refl _)

/-- Left extension of a diagonal block in a self-comparison runs all the way
to the start of the string. -/
theorem extendLeft_diag (s : List Char) :
    ∀ r k : Nat, r + k ≤ s.length →
      extendLeft s s 0 0 r r k = (0, 0, r + k) := by
  intro r
  induction r with
  | zero =>
    intro k _
    rw [extendLeft, Nat.zero_add]
  | succ m ih =>
    intro k hk
    rw [extendLeft]
    have hms : m < s.length := by omega
    have hcond : 0 < m + 1 ∧ 0 < m + 1 ∧ (s.get? m).isSome ∧
        s.get? m = s.get? (m + 1 - 1) := by
      refine ⟨Nat.succ_pos m, Nat.succ_pos m, ?_, rfl⟩
      rw [List.get?_eq_get hms]
      rfl
    rw [if_pos hcond]
    simp only [Nat.add_sub_cancel]
    rw [ih (k + 1) (by omega)]
    congr 1
    congr 1
    omega

/-- Right extension of a block starting at the origin of a self-comparison
runs to the end of the string. -/
theorem extendRightAux_diag (s : List Char) :
    ∀ fuel k : Nat, fuel + k = s.length →
      extendRightAux s s s.length 0 0 fuel k = s.length := by
  intro fuel
  induction fuel with
  | zero =>
    intro k hk
    rw [extendRightAux]
    omega
  | succ fuel ih =>
    intro k hk
    rw [extendRightAux]
    have hklt : k < s.length := by omega
    have h0k : (0 : Nat) + k = k := Nat.zero_add k
    have hcond : 0 + k < s.length ∧ (s.get? (0 + k)).isSome ∧
        s.get? (0 + k) = s.get? (0 + k) := by
      refine ⟨by omega, ?_, rfl⟩
      rw [h0k, List.get?_eq_get hklt]
      rfl
    rw [if_pos hcond]
    exact ih (k + 1) (by omega)

/-- On a self-comparison over the full range, `find_longest_match` returns
the whole string as one block: the scan's best block is diagonal, and the
two extension loops stretch any diagonal block to the full diagonal. -/
theorem findLongestMatch_self (s : List Char) :
    findLongestMatch s s 0 s.length 0 s.length = (0, 0, s.length) := by
  obtain ⟨hdiag, hbound, _, _, _⟩ := flmScan_self s
  rw [findLongestMatch]
  have hL : extendLeft s s 0 0 (flmScan s s 0 s.length 0 s.length).1.besti
      (flmScan s s 0 s.length 0 s.length).1.bestj
      (flmScan s s 0 s.length 0 s.length).1.bestsize =
      (0, 0, (flmScan s s 0 s.length 0 s.length).1.besti +
        (flmScan s s 0 s.length 0 s.length).1.bestsize) := by
    rw [← hdiag]
    exact extendLeft_diag s _ _ hbound
  rw [hL]
  dsimp only
  rw [extendRight]
  rw [extendRightAux_diag s _ _ (by omega)]

theorem matchedTotal_self (s : List Char) : matchedTotal s s = s.length := by
  rw [matchedTotal, matchedTotalAux]
  rw [findLongestMatch_self]
  dsimp only
  by_cases hn : s.length = 0
  · rw [if_pos hn, hn]
  · rw [if_neg hn]
    have h1 : ¬ ((0 : Nat) < 0 ∧ (0 : Nat) < 0) := by omega
    have h2 : ¬ (0 + s.length < s.length ∧ 0 + s.length < s.length) := by omega
    rw [if_neg h1, if_neg h2]
    omega

/-- C7 (amended): the similarity function is not symmetric in general (see
`c7_counterexample`), but it is reflexive: every string has similarity 1
with itself, for any length (the autojunk heuristic cannot break the full
diagonal match, because the extension loops of `find_longest_match` extend
any diagonal block across popular characters). -/
theorem c7_similarity_reflexive (P : Phrase) : similarity_ratio P P = 1 := by
  rw [similarity_ratio]
  by_cases h : P.length + P.length = 0
  · rw [if_pos h]
  · rw [if_neg h, matchedTotal_self, Rat.mkRat_eq_div]
    have hn : P.length ≠ 0 := by omega
    have hden : ((P.length + P.length : ℕ) : ℚ) ≠ 0 :=
      Nat.cast_ne_zero.mpr h
    rw [div_eq_one_iff_eq hden]
    push_cast
    ring

end PhraseReducer
